import Mathlib

/-!
Shallow embedding of `ef-nuget-models-loader.py` (oexo/ef_nuget_updater).

The program polls version-check endpoints, resolves the maximum reported
version (via `packaging.version.parse` restricted to dotted numeric release
versions), normalizes a trailing `.0`, keeps a flat-file ledger of downloaded
versions, and downloads a package from a set of package endpoints.

Modelling choices:
  * File contents are `String`s; the ledger file is `Option String`
    (`none` = the file does not exist on disk).
  * Python string operations are embedded as structural functions on
    `List Char` (`String.data`), so everything kernel-evaluates.
  * The HTTP layer (the `requests` library) is an external collaborator: the
    outcome of each request this run is part of the modelled world
    (`VcOutcome` / `PkgOutcome`).  `jsonschema` validation is likewise an
    oracle: a schema-valid body carries the version string of its required
    field.  A missing `Content-Disposition` header is modelled as
    `PkgOutcome.ok none` (the filename derivation itself is abstracted).
  * Uncaught Python exceptions are `Except.error` values of type `Crash`;
    the source catches only `json.decoder.JSONDecodeError` in the poller and
    only `requests.exceptions.HTTPError` in the fetcher, so a
    connection-level error or a missing header propagates as `Crash`.
-/

/-! ## Character-list utilities (embeddings of Python str operations) -/

/-- Python `s.split(".")` on character lists: accumulator-based splitter.
`"".split(".") == [""]`, matching the `[acc.reverse]` base case. -/
def splitDotsAux : List Char → List Char → List (List Char)
  | [], acc => [acc.reverse]
  | c :: cs, acc =>
    if c = '.' then acc.reverse :: splitDotsAux cs []
    else splitDotsAux cs (c :: acc)

/-- Python `int(...)` on a digit-character component (the components of a
dotted numeric version are decimal digit runs). -/
def digitsToNat (cs : List Char) : Nat :=
  cs.foldl (fun n c => 10 * n + (c.toNat - 48)) 0

/-- Iteration over a Python file object yields its lines, each including its
terminating newline; a final unterminated chunk is yielded without one. -/
def pyLinesAux : List Char → List Char → List (List Char)
  | [], acc => if acc = [] then [] else [acc.reverse]
  | c :: cs, acc =>
    if c = '\n' then (acc.reverse ++ ['\n']) :: pyLinesAux cs []
    else pyLinesAux cs (c :: acc)

/-- The lines (with newline terminators) of a file whose content is `s`. -/
def pyLines (s : String) : List (List Char) :=
  pyLinesAux s.data []

/-- Character for a decimal digit (only arguments below 10 arise, since it is
always applied to a remainder mod 10). -/
def pyDigitChar : Nat → Char
  | 0 => '0'
  | 1 => '1'
  | 2 => '2'
  | 3 => '3'
  | 4 => '4'
  | 5 => '5'
  | 6 => '6'
  | 7 => '7'
  | 8 => '8'
  | _ => '9'

/-- Decimal digit characters of a natural number, most significant first,
fuel-based so that it is structural (the embedding of Python `str(int)`
as used by `str(packaging.version.Version)` on release components). -/
def natDigitsAux : Nat → Nat → List Char → List Char
  | 0, _, acc => acc
  | fuel + 1, n, acc =>
    let acc2 := pyDigitChar (n % 10) :: acc
    if n < 10 then acc2 else natDigitsAux fuel (n / 10) acc2

/-- Decimal representation of a natural number as characters. -/
def natToChars (n : Nat) : List Char :=
  natDigitsAux (n + 1) n []

/-- Join components with `'.'` separators: `str(Version)` of a release tuple. -/
def joinDots : List (List Char) → List Char
  | [] => []
  | [x] => x
  | x :: y :: ys => x ++ '.' :: joinDots (y :: ys)

/-! ## Version comparator (`packaging.version` restricted to releases) -/

/-- Parse a dotted numeric version string into its release components,
the embedding of `packaging.version.parse` on release-only versions. -/
def parseVer (s : String) : List Nat :=
  (splitDotsAux s.data []).map digitsToNat

/-- True if some component is positive: the zero-padded comparison of `[]`
against a list. -/
def anyPos (l : List Nat) : Bool :=
  l.any (fun x => 0 < x)

/-- Strict comparison of release tuples, the embedding of
`packaging.version.Version.__lt__` on release-only versions: component-wise
numeric comparison with implicit zero padding of the shorter tuple. -/
def versionLt : List Nat → List Nat → Bool
  | [], ys => anyPos ys
  | _ :: _, [] => false
  | x :: xs, y :: ys => decide (x < y) || (decide (x = y) && versionLt xs ys)

/-- Render a release tuple back to its dotted decimal string,
the embedding of `str(packaging.version.Version)` on release-only versions. -/
def verToString (l : List Nat) : String :=
  String.mk (joinDots (l.map natToChars))

/-- The fold inside `determine_senior_version`: starting from the sentinel
`parse("0.0")`, replace the accumulator whenever a reported version is
strictly greater. -/
def seniorVer (model_versions : List (String × String)) : List Nat :=
  model_versions.foldl
    (fun acc p => if versionLt acc (parseVer p.2) then parseVer p.2 else acc)
    (parseVer "0.0")

/-- Embedding of `determine_senior_version`: fold the values of the report
mapping (insertion order) with `<` on parsed versions, from `parse("0.0")`,
and return `str` of the winner. -/
def determine_senior_version (model_versions : List (String × String)) : String :=
  verToString (seniorVer model_versions)

/-! ## Normalization and URL helper -/

/-- Embedding of `delete_closing_zero`: Python
`model_version[:-2] if model_version[-2:] == ".0" else model_version`,
expressed via the reversed character list. -/
def delCZ (cs : List Char) : List Char :=
  match cs.reverse with
  | '0' :: '.' :: rest => rest.reverse
  | _ => cs

/-- Embedding of `delete_closing_zero` on strings. -/
def delete_closing_zero (model_version : String) : String :=
  String.mk (delCZ model_version.data)

/-- Embedding of `add_closing_slash`: Python appends `"/"` unless the slice
`url_path[-1:]` already equals `"/"`. -/
def add_closing_slash (url_path : String) : String :=
  match url_path.data.reverse with
  | '/' :: _ => url_path
  | _ => url_path ++ "/"

/-! ## History store (ledger) -/

/-- Embedding of `has_model_already_been_downloaded`: the Python membership
test `f"{ model_version } \n" in models_r` iterates the file's lines and
compares each whole line (newline included) for equality. -/
def has_model_already_been_downloaded (content : String) (model_version : String) : Bool :=
  decide ((model_version.data ++ [' ', '\n']) ∈ pyLines content)

/-- Embedding of `update_downloaded_mv_in_file`: append
`f"{ model_version } \n"` to the ledger file. -/
def update_downloaded_mv_in_file (content : String) (model_version : String) : String :=
  content ++ model_version ++ " \n"

/-- Embedding of `create_empty_file`: the content it leaves on disk. -/
def create_empty_file : String := ""

/-- A well-formed ledger state: the content produced by creating the file
empty and appending each version of `vs` in order with
`update_downloaded_mv_in_file`. -/
def ledgerOf (vs : List String) : String :=
  vs.foldl update_downloaded_mv_in_file create_empty_file

example : parseVer "1.0.198.0" = [1, 0, 198, 0] := by decide
example : versionLt (parseVer "1.0.166.1") (parseVer "1.0.198.0") = true := by decide
example : versionLt (parseVer "1.0") (parseVer "1.0.0.1") = true := by decide
example : determine_senior_version [] = "0.0" := by decide
example : determine_senior_version [("dh1", "1.0.166.1"), ("dh2", "1.0.198.0")] = "1.0.198.0" := by decide
example : delete_closing_zero "1.0.198.0" = "1.0.198" := by decide
example : delete_closing_zero "1.0.0" = "1.0" := by decide
example : add_closing_slash "http://x/nuget" = "http://x/nuget/" := by decide
example : has_model_already_been_downloaded (ledgerOf ["1.0.198"]) "1.0.198" = true := by decide
example : has_model_already_been_downloaded (ledgerOf ["1.0.198"]) "1.0" = false := by decide
example : update_downloaded_mv_in_file "" "1.0.198" = "1.0.198 \n" := by decide

/-! ## HTTP world model, poller, fetcher, orchestrator -/

/-- Uncaught Python exceptions that escape the program's handlers. -/
inductive Crash where
  /-- A `requests` exception raised by `requests.get` itself (connection
  error, timeout, ...); no handler in the source catches it. -/
  | connectionError : Crash
  /-- `KeyError` from `r.headers["Content-Disposition"]` when the header is
  absent on a successful download response. -/
  | keyError : Crash
deriving DecidableEq

/-- Outcome of the GET against one version-check endpoint this run. -/
inductive VcOutcome where
  /-- `requests.get` itself raises. -/
  | connErr : VcOutcome
  /-- The body is not parseable JSON: `json.loads` raises
  `json.decoder.JSONDecodeError`, which the source catches. -/
  | notJson : VcOutcome
  /-- The body parsed; `valid` is the `jsonschema` verdict and `version` the
  value of the searched field (present whenever the schema validates, since
  the schema requires it). -/
  | json (valid : Bool) (version : String) : VcOutcome
deriving DecidableEq

/-- Outcome of the streamed GET against one package endpoint this run. -/
inductive PkgOutcome where
  /-- `requests.get` itself raises. -/
  | connErr : PkgOutcome
  /-- `r.raise_for_status()` raises `requests.exceptions.HTTPError`
  (an error HTTP status), which the source catches. -/
  | httpError : PkgOutcome
  /-- A successful response; `contentDisposition` is `some filename` when the
  `Content-Disposition` header is present (filename extraction abstracted),
  `none` when the header is absent. -/
  | ok (contentDisposition : Option String) : PkgOutcome
deriving DecidableEq

/-- One named version-check endpoint together with this run's outcome. -/
structure VcEndpoint where
  name : String
  path : String
  outcome : VcOutcome
deriving DecidableEq

/-- One named package-download endpoint together with this run's outcome. -/
structure PkgEndpoint where
  name : String
  path : String
  outcome : PkgOutcome
deriving DecidableEq

/-- Log events, abstracting the timestamped lines of
`new_create_log_message` to the incident selected and its parameters. -/
inductive LogEvent where
  /-- `"Info 0"`: JSON was decoded (and validated) for this endpoint. -/
  | info0 (urlName urlPath : String) : LogEvent
  /-- `"Info 1"`: package was downloaded from this URL. -/
  | info1 (urlName urlPath : String) : LogEvent
  /-- `"Warning 0"`: JSON is not valid against the schema. -/
  | warning0 (urlName urlPath : String) : LogEvent
  /-- `"Warning 1"`: JSON did not load (decode failure). -/
  | warning1 (urlName urlPath : String) : LogEvent
  /-- `"Error 0"`: no version was found in the named endpoint list. -/
  | error0 (urlNameList : List String) : LogEvent
  /-- `"Error 1"`: package download error from this URL. -/
  | error1 (urlName urlPath : String) : LogEvent
  /-- `"Disaster 0"`: no package was downloaded. -/
  | disaster0 : LogEvent
deriving DecidableEq

/-- Result of `get_mv_from_urls`: the report mapping, the list of all
attempted endpoint names, and the per-endpoint log events. -/
structure GetMvResult where
  models : List (String × String)
  names : List String
  logs : List LogEvent
deriving DecidableEq

/-- Embedding of `get_mv_from_urls`: for each endpoint append its name to
`url_name_list`; on a decodable, schema-valid body record
`delete_closing_zero` of the version under the endpoint's name; a decode
failure or validation failure only logs; a connection-level error is not
caught and aborts the whole function. -/
def get_mv_from_urls : List VcEndpoint → Except Crash GetMvResult
  | [] => .ok ⟨[], [], []⟩
  | e :: es =>
    match e.outcome with
    | .connErr => .error .connectionError
    | .notJson =>
      match get_mv_from_urls es with
      | .error c => .error c
      | .ok r => .ok ⟨r.models, e.name :: r.names, .warning1 e.name e.path :: r.logs⟩
    | .json true ver =>
      match get_mv_from_urls es with
      | .error c => .error c
      | .ok r =>
        .ok ⟨(e.name, delete_closing_zero ver) :: r.models, e.name :: r.names,
             .info0 e.name e.path :: r.logs⟩
    | .json false _ =>
      match get_mv_from_urls es with
      | .error c => .error c
      | .ok r => .ok ⟨r.models, e.name :: r.names, .warning0 e.name e.path :: r.logs⟩

/-- Result of `download_nuurls_with_model_package`: the returned status code,
the URLs actually requested, and the log events. -/
structure DownloadResult where
  code : Nat
  urls : List String
  logs : List LogEvent
deriving DecidableEq

/-- Embedding of `download_nuurls_with_model_package`: for each package
endpoint build the URL (base with exactly one closing slash, then the
version), request it; an HTTP error status sets the return code to 1 and
continues; a connection-level error or a missing `Content-Disposition`
header is not caught and aborts; otherwise the body is streamed to disk and
the code so far is kept. -/
def download_nuurls_with_model_package :
    List PkgEndpoint → String → Except Crash DownloadResult
  | [], _ => .ok ⟨0, [], []⟩
  | e :: es, v =>
    let url := add_closing_slash e.path ++ v
    match e.outcome with
    | .connErr => .error .connectionError
    | .httpError =>
      match download_nuurls_with_model_package es v with
      | .error c => .error c
      | .ok r => .ok ⟨1, url :: r.urls, .error1 e.name url :: r.logs⟩
    | .ok none => .error .keyError
    | .ok (some _) =>
      match download_nuurls_with_model_package es v with
      | .error c => .error c
      | .ok r => .ok ⟨r.code, url :: r.urls, .info1 e.name url :: r.logs⟩

/-- The world a run executes in: the configured endpoints with this run's
outcomes, and the ledger file (`none` = absent from disk). -/
structure World where
  vcEndpoints : List VcEndpoint
  pkgEndpoints : List PkgEndpoint
  ledger : Option String
deriving DecidableEq

/-- Observable result of a completed run. -/
structure RunResult where
  /-- Final ledger file state (`none` = still absent). -/
  ledger : Option String
  /-- Per-endpoint log events of the polling phase. -/
  pollLogs : List LogEvent
  /-- Log events emitted after polling (fetch logs, or the
  empty-report error and disaster notices). -/
  postLogs : List LogEvent
  /-- URLs requested during the fetch phase. -/
  fetchUrls : List String
  /-- Whether `download_nuurls_with_model_package` was invoked. -/
  fetchCalled : Bool
deriving DecidableEq

deriving instance DecidableEq for Except

/-- Embedding of `main` (named `main_run` because Lean reserves `main` for an
executable entry point): poll, and if the report is nonempty resolve the
senior version, create the ledger file when absent, skip everything if the
version is already recorded, otherwise fetch and append to the ledger
exactly when the fetch status is 0; an empty report logs the error naming
all attempted endpoints and the disaster notice. -/
def main_run (w : World) : Except Crash RunResult :=
  match get_mv_from_urls w.vcEndpoints with
  | .error c => .error c
  | .ok g =>
    if g.models = [] then
      .ok ⟨w.ledger, g.logs, [.error0 g.names, .disaster0], [], false⟩
    else
      let v := determine_senior_version g.models
      let ledger0 := w.ledger.getD create_empty_file
      if has_model_already_been_downloaded ledger0 v then
        .ok ⟨some ledger0, g.logs, [], [], false⟩
      else
        match download_nuurls_with_model_package w.pkgEndpoints v with
        | .error c => .error c
        | .ok d =>
          .ok ⟨some (if d.code = 0 then update_downloaded_mv_in_file ledger0 v else ledger0),
               g.logs, d.logs, d.urls, true⟩

example :
    main_run ⟨[⟨"dh1", "u1", .json true "1.0.198.0"⟩], [⟨"prgt", "p", .ok (some "pkg.nupkg")⟩], none⟩ =
      .ok ⟨some "1.0.198 \n", [.info0 "dh1" "u1"], [.info1 "prgt" "p/1.0.198"], ["p/1.0.198"], true⟩ := by
  decide

example :
    main_run ⟨[⟨"dh1", "u1", .connErr⟩], [], none⟩ = .error .connectionError := by decide

example :
    main_run ⟨[⟨"dh1", "u1", .notJson⟩], [], none⟩ =
      .ok ⟨none, [.warning1 "dh1" "u1"], [.error0 ["dh1"], .disaster0], [], false⟩ := by decide

/-! ## Order lemmas for the version comparator -/

theorem versionLt_nil_left (b : List Nat) : versionLt [] b = anyPos b := by
  cases b <;> rfl

theorem versionLt_nil_right (b : List Nat) : versionLt b [] = false := by
  cases b with
  | nil => rfl
  | cons x xs => rfl

theorem versionLt_cons (x y : Nat) (xs ys : List Nat) :
    versionLt (x :: xs) (y :: ys) = true ↔ x < y ∨ (x = y ∧ versionLt xs ys = true) := by
  simp [versionLt]

theorem versionLt_irrefl (a : List Nat) : versionLt a a = false := by
  induction a with
  | nil => rfl
  | cons x xs ih => simp [versionLt, ih]

theorem anyPos_of_versionLt {a b : List Nat} (h : versionLt a b = true) :
    anyPos b = true := by
  induction a generalizing b with
  | nil => rwa [versionLt_nil_left] at h
  | cons x xs ih =>
    cases b with
    | nil => rw [versionLt_nil_right] at h; exact absurd h (by simp)
    | cons y ys =>
      rcases (versionLt_cons x y xs ys).mp h with h1 | ⟨h1, h2⟩
      · simp [anyPos]; left; omega
      · have := ih h2
        simp [anyPos] at this ⊢
        right; exact this

theorem anyPos_trans_versionLt {b c : List Nat} (hb : anyPos b = true)
    (h : versionLt b c = true) : anyPos c = true := by
  induction b generalizing c with
  | nil => exact absurd hb (by simp [anyPos])
  | cons y ys ih =>
    cases c with
    | nil => rw [versionLt_nil_right] at h; exact absurd h (by simp)
    | cons z zs =>
      rcases (versionLt_cons y z ys zs).mp h with h1 | ⟨h1, h2⟩
      · simp [anyPos]; left; omega
      · simp [anyPos] at hb ⊢
        rcases hb with hb | hb
        · left; omega
        · right
          exact (by simpa [anyPos] using ih (by simpa [anyPos] using hb) h2)

theorem versionLt_of_allZero {c b : List Nat} (hc : anyPos c = false)
    (hb : anyPos b = true) : versionLt c b = true := by
  induction c generalizing b with
  | nil => rwa [versionLt_nil_left]
  | cons z zs ih =>
    cases b with
    | nil => exact absurd hb (by simp [anyPos])
    | cons y ys =>
      simp [anyPos] at hc hb
      rcases hb with hb | hb
      · exact (versionLt_cons z y zs ys).mpr (Or.inl (by omega))
      · refine (versionLt_cons z y zs ys).mpr ?_
        by_cases hy : 0 < y
        · exact Or.inl (by omega)
        · exact Or.inr ⟨by omega, ih (by simpa [anyPos] using hc.2)
            (by simpa [anyPos] using hb)⟩

theorem versionLt_trans {a b c : List Nat} (hab : versionLt a b = true)
    (hbc : versionLt b c = true) : versionLt a c = true := by
  induction a generalizing b c with
  | nil =>
    rw [versionLt_nil_left] at hab ⊢
    exact anyPos_trans_versionLt hab hbc
  | cons x xs ih =>
    cases b with
    | nil => rw [versionLt_nil_right] at hab; exact absurd hab (by simp)
    | cons y ys =>
      cases c with
      | nil => rw [versionLt_nil_right] at hbc; exact absurd hbc (by simp)
      | cons z zs =>
        rcases (versionLt_cons x y xs ys).mp hab with h1 | ⟨h1, h2⟩ <;>
          rcases (versionLt_cons y z ys zs).mp hbc with g1 | ⟨g1, g2⟩ <;>
            refine (versionLt_cons x z xs zs).mpr ?_
        · exact Or.inl (by omega)
        · exact Or.inl (by omega)
        · exact Or.inl (by omega)
        · exact Or.inr ⟨by omega, ih h2 g2⟩

theorem versionLt_asymm {a b : List Nat} (hab : versionLt a b = true) :
    versionLt b a = false := by
  induction a generalizing b with
  | nil =>
    rw [versionLt_nil_left] at hab
    exact versionLt_nil_right b
  | cons x xs ih =>
    cases b with
    | nil => rw [versionLt_nil_right] at hab; exact absurd hab (by simp)
    | cons y ys =>
      rcases (versionLt_cons x y xs ys).mp hab with h1 | ⟨h1, h2⟩
      · simp [versionLt]; omega
      · have := ih h2
        simp [versionLt, this]; omega

theorem versionLt_of_lt_of_not_lt {a b c : List Nat} (hab : versionLt a b = true)
    (hcb : versionLt c b = false) : versionLt a c = true := by
  induction a generalizing b c with
  | nil =>
    rw [versionLt_nil_left] at hab ⊢
    cases hc : anyPos c with
    | false => rw [versionLt_of_allZero hc hab] at hcb; exact absurd hcb (by simp)
    | true => rfl
  | cons x xs ih =>
    cases b with
    | nil => rw [versionLt_nil_right] at hab; exact absurd hab (by simp)
    | cons y ys =>
      cases c with
      | nil =>
        rw [versionLt_nil_left] at hcb
        have := anyPos_of_versionLt hab
        rw [this] at hcb; exact absurd hcb (by simp)
      | cons z zs =>
        have hcb2 : ¬ (z < y ∨ (z = y ∧ versionLt zs ys = true)) := by
          intro hcon
          exact absurd ((versionLt_cons z y zs ys).mpr hcon) (by simp [hcb])
        push_neg at hcb2
        rcases (versionLt_cons x y xs ys).mp hab with h1 | ⟨h1, h2⟩ <;>
          refine (versionLt_cons x z xs zs).mpr ?_
        · exact Or.inl (by omega)
        · by_cases hyz : y < z
          · exact Or.inl (by omega)
          · have hzy : z = y := by omega
            have : versionLt zs ys = false := by
              cases hvt : versionLt zs ys with
              | false => rfl
              | true => exact absurd hvt (hcb2.2 hzy)
            exact Or.inr ⟨by omega, ih h2 this⟩

/-! ## Fold lemmas for `determine_senior_version` -/

/-- One step of the fold in `determine_senior_version`. -/
def bump (acc : List Nat) (p : String × String) : List Nat :=
  if versionLt acc (parseVer p.2) then parseVer p.2 else acc

theorem seniorVer_eq_foldl (l : List (String × String)) :
    seniorVer l = l.foldl bump (parseVer "0.0") := rfl

theorem foldl_bump_attained (l : List (String × String)) (acc : List Nat) :
    l.foldl bump acc = acc ∨ ∃ p ∈ l, l.foldl bump acc = parseVer p.2 := by
  induction l generalizing acc with
  | nil => exact Or.inl rfl
  | cons q qs ih =>
    rw [List.foldl_cons]
    rcases ih (bump acc q) with h | ⟨p, hp, h⟩
    · by_cases hq : versionLt acc (parseVer q.2) = true
      · right
        refine ⟨q, List.mem_cons_self q qs, ?_⟩
        rw [h]; simp only [bump, if_pos hq]
      · left
        rw [h]; simp only [bump, if_neg hq]
    · right; exact ⟨p, List.mem_cons_of_mem q hp, h⟩

theorem foldl_bump_ge_acc (l : List (String × String)) (acc : List Nat) :
    versionLt (l.foldl bump acc) acc = false := by
  induction l generalizing acc with
  | nil => exact versionLt_irrefl acc
  | cons q qs ih =>
    rw [List.foldl_cons]
    have ihq := ih (bump acc q)
    by_cases hq : versionLt acc (parseVer q.2) = true
    · have h3 : bump acc q = parseVer q.2 := by simp only [bump, if_pos hq]
      rw [h3] at ihq ⊢
      cases hres : versionLt (List.foldl bump (parseVer q.2) qs) acc with
      | false => rfl
      | true =>
        have h2 := versionLt_trans hres hq
        rw [h2] at ihq
        exact ihq
    · have h3 : bump acc q = acc := by simp only [bump, if_neg hq]
      rw [h3] at ihq ⊢
      exact ihq

theorem foldl_bump_ge_all (l : List (String × String)) (acc : List Nat) :
    ∀ p ∈ l, versionLt (l.foldl bump acc) (parseVer p.2) = false := by
  induction l generalizing acc with
  | nil => intro p hp; exact absurd hp (List.not_mem_nil p)
  | cons q qs ih =>
    intro p hp
    rw [List.foldl_cons]
    rcases List.mem_cons.mp hp with hpq | hp2
    · rw [hpq]
      have hge := foldl_bump_ge_acc qs (bump acc q)
      by_cases hq : versionLt acc (parseVer q.2) = true
      · have h3 : bump acc q = parseVer q.2 := by simp only [bump, if_pos hq]
        rw [h3] at hge ⊢
        exact hge
      · have h3 : bump acc q = acc := by simp only [bump, if_neg hq]
        rw [h3] at hge ⊢
        cases hres : versionLt (List.foldl bump acc qs) (parseVer q.2) with
        | false => rfl
        | true =>
          have h4 := versionLt_of_lt_of_not_lt hres (by simpa using hq)
          rw [h4] at hge
          exact hge
    · exact ih (bump acc q) p hp2

/-- Claim C2: `determine_senior_version` folds the reported versions with the
component-wise numeric strict order (zero-padded, hence `1.0 < 1.0.0.1` and
`1.0.166.1 < 1.0.198.0`, not lexical string order), starting from the
sentinel `parse("0.0")`; the winner is maximal among all reported versions,
is attained (it is the sentinel or one of the parsed reports), the order is
transitive, asymmetric and total, and the empty mapping yields the
sentinel's string form `"0.0"`. -/
theorem claim_C2_determine_senior_version_max (l : List (String × String)) :
    (l = [] → determine_senior_version l = "0.0")
    ∧ (∀ p ∈ l, versionLt (seniorVer l) (parseVer p.2) = false)
    ∧ (seniorVer l = parseVer "0.0" ∨ ∃ p ∈ l, seniorVer l = parseVer p.2)
    ∧ determine_senior_version l = verToString (seniorVer l)
    ∧ (∀ a b c : List Nat, versionLt a b = true → versionLt b c = true →
        versionLt a c = true)
    ∧ (∀ a b : List Nat, versionLt a b = true → versionLt b a = false)
    ∧ (∀ a b : List Nat, versionLt a b = true ∨ versionLt b a = true
        ∨ (versionLt a b = false ∧ versionLt b a = false))
    ∧ versionLt (parseVer "1.0.166.1") (parseVer "1.0.198.0") = true
    ∧ versionLt (parseVer "1.0") (parseVer "1.0.0.1") = true := by
  refine ⟨?_, ?_, ?_, rfl, ?_, ?_, ?_, by decide, by decide⟩
  · rintro rfl; decide
  · intro p hp
    rw [seniorVer_eq_foldl]
    exact foldl_bump_ge_all l (parseVer "0.0") p hp
  · rw [seniorVer_eq_foldl]
    exact foldl_bump_attained l (parseVer "0.0")
  · intro a b c hab hbc; exact versionLt_trans hab hbc
  · intro a b hab; exact versionLt_asymm hab
  · intro a b
    cases hab : versionLt a b with
    | true => exact Or.inl rfl
    | false =>
      cases hba : versionLt b a with
      | true => exact Or.inr (Or.inl rfl)
      | false => exact Or.inr (Or.inr ⟨rfl, rfl⟩)

/-- Witness for C2: the theorem applied at the empty mapping and at a
two-endpoint mapping, with the hypotheses discharged concretely. -/
theorem claim_C2_witness :
    determine_senior_version [] = "0.0"
    ∧ versionLt (seniorVer [("dh1", "1.0.166.1"), ("dh2", "1.0.198.0")])
        (parseVer "1.0.166.1") = false := by
  refine ⟨(claim_C2_determine_senior_version_max []).1 rfl, ?_⟩
  exact (claim_C2_determine_senior_version_max
    [("dh1", "1.0.166.1"), ("dh2", "1.0.198.0")]).2.1 ("dh1", "1.0.166.1") (by simp)

/-! ## Normalization lemmas -/

theorem delCZ_append_zero (t : List Char) : delCZ (t ++ ['.', '0']) = t := by
  simp [delCZ, List.reverse_append]

theorem delCZ_no_suffix (cs : List Char) (h : ∀ t, cs ≠ t ++ ['.', '0']) :
    delCZ cs = cs := by
  unfold delCZ
  split
  next rest heq =>
    exfalso
    apply h rest.reverse
    have h2 : cs.reverse.reverse = ('0' :: '.' :: rest).reverse := by rw [heq]
    simpa using h2
  next => rfl

/-- Claim C8: `delete_closing_zero` removes exactly one trailing `.0` suffix
when the string ends in `.0`, returns any string without that suffix
unchanged, and strips at most once per call (so `1.0.0` becomes `1.0`,
not `1`). -/
theorem claim_C8_delete_closing_zero (t : List Char) (v : String) :
    delete_closing_zero (String.mk (t ++ ['.', '0'])) = String.mk t
    ∧ ((∀ u : List Char, v.data ≠ u ++ ['.', '0']) → delete_closing_zero v = v)
    ∧ delete_closing_zero "1.0.198.0" = "1.0.198"
    ∧ delete_closing_zero "1.0.0" = "1.0"
    ∧ delete_closing_zero "1.0.198" = "1.0.198" := by
  refine ⟨?_, ?_, by decide, by decide, by decide⟩
  · show String.mk (delCZ (t ++ ['.', '0'])) = String.mk t
    rw [delCZ_append_zero]
  · intro hu
    show String.mk (delCZ v.data) = v
    rw [delCZ_no_suffix v.data hu]

/-- Witness for C8: the theorem applied at `t = ['1']`, `v = "1"`, with the
no-suffix hypothesis discharged by a length argument. -/
theorem claim_C8_witness :
    delete_closing_zero (String.mk (['1'] ++ ['.', '0'])) = String.mk ['1']
    ∧ delete_closing_zero "1" = "1" := by
  refine ⟨(claim_C8_delete_closing_zero ['1'] "1").1, ?_⟩
  apply (claim_C8_delete_closing_zero ['1'] "1").2.1
  intro u h
  have h2 := congrArg List.length h
  simp at h2

/-- Counterexample to claim C7 as stated: `delete_closing_zero` is not
idempotent, because one strip can expose another trailing `.0`:
`1.0.0` normalizes to `1.0`, and normalizing again gives `1`. -/
theorem claim_C7_counterexample :
    delete_closing_zero (delete_closing_zero "1.0.0") ≠ delete_closing_zero "1.0.0"
    ∧ delete_closing_zero "1.0.0" = "1.0"
    ∧ delete_closing_zero (delete_closing_zero "1.0.0") = "1" := by
  refine ⟨by decide, by decide, by decide⟩

/-- Claim C7 (amended): normalizing twice equals normalizing once for every
version string that does not end in `.0.0`; on a string ending in `.0.0`
the second application strips a further `.0`. -/
theorem claim_C7_amended_normalize_idem (v : String)
    (h : ∀ t : List Char, v.data ≠ t ++ ['.', '0', '.', '0']) :
    delete_closing_zero (delete_closing_zero v) = delete_closing_zero v := by
  by_cases hz : ∃ t : List Char, v.data = t ++ ['.', '0']
  · obtain ⟨t, ht⟩ := hz
    have h1 : delete_closing_zero v = String.mk t := by
      show String.mk (delCZ v.data) = String.mk t
      rw [ht, delCZ_append_zero]
    rw [h1]
    have h2 : delCZ t = t := by
      apply delCZ_no_suffix
      intro u hu
      apply h u
      rw [ht, hu, List.append_assoc]
      rfl
    show String.mk (delCZ t) = String.mk t
    rw [h2]
  · have hno : ∀ t : List Char, v.data ≠ t ++ ['.', '0'] := fun t ht => hz ⟨t, ht⟩
    have h1 : delete_closing_zero v = v := by
      show String.mk (delCZ v.data) = v
      rw [delCZ_no_suffix v.data hno]
    rw [h1, h1]

/-- Witness for the amended C7: applied at `v = "1.0"`, whose `.0.0`-free
hypothesis is discharged by a length argument. -/
theorem claim_C7_amended_witness :
    delete_closing_zero (delete_closing_zero "1.0") = delete_closing_zero "1.0" := by
  apply claim_C7_amended_normalize_idem
  intro t ht
  have h2 := congrArg List.length ht
  simp at h2

/-! ## Ledger lemmas -/

theorem update_data (content v : String) :
    (update_downloaded_mv_in_file content v).data
      = content.data ++ (v.data ++ [' ', '\n']) := by
  show (content ++ v ++ " \n").data = content.data ++ (v.data ++ [' ', '\n'])
  rw [String.data_append, String.data_append]
  simp

theorem ledgerOf_data (vs : List String) :
    (ledgerOf vs).data = (vs.map (fun v => v.data ++ [' ', '\n'])).flatten := by
  have key : ∀ (c : String),
      (vs.foldl update_downloaded_mv_in_file c).data
        = c.data ++ (vs.map (fun v => v.data ++ [' ', '\n'])).flatten := by
    induction vs with
    | nil => intro c; simp
    | cons v vs ih =>
      intro c
      rw [List.foldl_cons, ih, update_data]
      simp
  have h := key create_empty_file
  simpa [create_empty_file] using h

theorem pyLinesAux_append_line (x : List Char) (hx : '\n' ∉ x) :
    ∀ (rest acc : List Char),
      pyLinesAux (x ++ '\n' :: rest) acc
        = ((acc.reverse ++ x) ++ ['\n']) :: pyLinesAux rest [] := by
  induction x with
  | nil =>
    intro rest acc
    simp [pyLinesAux]
  | cons c cs ih =>
    intro rest acc
    have hx2 : ('\n' : Char) ≠ c ∧ ('\n' : Char) ∉ cs := by
      constructor
      · intro h2; exact hx (h2 ▸ List.mem_cons_self c cs)
      · intro h2; exact hx (List.mem_cons_of_mem c h2)
    have hc : ¬ (c = '\n') := fun h => hx2.1 h.symm
    simp only [List.cons_append, pyLinesAux, if_neg hc, List.append_eq]
    rw [ih hx2.2 rest (c :: acc)]
    simp

theorem pyLinesAux_flatten (ys : List (List Char)) (h : ∀ y ∈ ys, '\n' ∉ y) :
    pyLinesAux ((ys.map (fun y => y ++ ['\n'])).flatten) []
      = ys.map (fun y => y ++ ['\n']) := by
  induction ys with
  | nil => rfl
  | cons y ys ih =>
    simp only [List.map_cons, List.flatten_cons]
    rw [show (y ++ ['\n']) ++ (ys.map (fun y => y ++ ['\n'])).flatten
         = y ++ '\n' :: (ys.map (fun y => y ++ ['\n'])).flatten by simp]
    rw [pyLinesAux_append_line y (h y (by simp)) _ []]
    rw [ih (fun z hz => h z (by simp [hz]))]
    simp

theorem pyLines_ledgerOf (vs : List String) (hvs : ∀ u ∈ vs, '\n' ∉ u.data) :
    pyLines (ledgerOf vs) = vs.map (fun v => v.data ++ [' ', '\n']) := by
  unfold pyLines
  rw [ledgerOf_data]
  have hmap : vs.map (fun v => v.data ++ [' ', '\n'])
      = (vs.map (fun v => v.data ++ [' '])).map (fun y => y ++ ['\n']) := by
    simp [List.map_map, Function.comp]
  rw [hmap]
  apply pyLinesAux_flatten
  intro y hy
  rcases List.mem_map.mp hy with ⟨u, hu, rfl⟩
  intro hmem
  rcases List.mem_append.mp hmem with hmem2 | hmem2
  · exact hvs u hu hmem2
  · simp at hmem2

theorem ledgerOf_snoc (vs : List String) (v : String) :
    ledgerOf (vs ++ [v]) = update_downloaded_mv_in_file (ledgerOf vs) v := by
  unfold ledgerOf
  rw [List.foldl_append]
  rfl

/-- Claim C3: over well-formed ledger states (the states reachable by the
code's own `create_empty_file` and `update_downloaded_mv_in_file`, with
newline-free version strings), membership after an append is true,
membership of a never-appended version is false, and membership holds iff
some ledger line exactly equals the version followed by a single trailing
space (and the newline). -/
theorem claim_C3_ledger_roundtrip (vs : List String) (v : String)
    (hvs : ∀ u ∈ vs, '\n' ∉ u.data) (hv : '\n' ∉ v.data) :
    has_model_already_been_downloaded
        (update_downloaded_mv_in_file (ledgerOf vs) v) v = true
    ∧ (v ∉ vs → has_model_already_been_downloaded (ledgerOf vs) v = false)
    ∧ (∀ content : String,
        has_model_already_been_downloaded content v = true
          ↔ (v.data ++ [' ', '\n']) ∈ pyLines content) := by
  have hiff : ∀ content : String,
      has_model_already_been_downloaded content v = true
        ↔ (v.data ++ [' ', '\n']) ∈ pyLines content := by
    intro content
    exact decide_eq_true_iff
  refine ⟨?_, ?_, hiff⟩
  · rw [← ledgerOf_snoc, hiff]
    rw [pyLines_ledgerOf (vs ++ [v])]
    · apply List.mem_map.mpr
      exact ⟨v, by simp, rfl⟩
    · intro u hu
      rcases List.mem_append.mp hu with h2 | h2
      · exact hvs u h2
      · simp at h2; rw [h2]; exact hv
  · intro hnotin
    cases hc : has_model_already_been_downloaded (ledgerOf vs) v with
    | false => rfl
    | true =>
      exfalso
      have hmem := (hiff (ledgerOf vs)).mp hc
      rw [pyLines_ledgerOf vs hvs] at hmem
      rcases List.mem_map.mp hmem with ⟨u, hu, hequ⟩
      have : u = v := String.ext (List.append_cancel_right hequ)
      exact hnotin (this ▸ hu)

/-- Witness for C3: the theorem applied at the concrete ledger holding
`1.0.198` and the never-appended version `2.0`. -/
theorem claim_C3_witness :
    has_model_already_been_downloaded
        (update_downloaded_mv_in_file (ledgerOf ["1.0.198"]) "2.0") "2.0" = true
    ∧ has_model_already_been_downloaded (ledgerOf ["1.0.198"]) "2.0" = false := by
  have h := claim_C3_ledger_roundtrip ["1.0.198"] "2.0" (by decide) (by decide)
  exact ⟨h.1, h.2.1 (by decide)⟩

/-! ## The resolved version string never contains a newline -/

theorem pyDigitChar_ne_newline (d : Nat) : pyDigitChar d ≠ '\n' := by
  unfold pyDigitChar
  split <;> decide

theorem natDigitsAux_ne_newline (fuel : Nat) :
    ∀ (n : Nat) (acc : List Char), (∀ c ∈ acc, c ≠ '\n') →
      ∀ c ∈ natDigitsAux fuel n acc, c ≠ '\n' := by
  induction fuel with
  | zero => intro n acc hacc c hc; exact hacc c hc
  | succ fuel ih =>
    intro n acc hacc c hc
    have hacc2 : ∀ c2 ∈ pyDigitChar (n % 10) :: acc, c2 ≠ '\n' := by
      intro c2 hc2
      rcases List.mem_cons.mp hc2 with rfl | h2
      · exact pyDigitChar_ne_newline (n % 10)
      · exact hacc c2 h2
    simp only [natDigitsAux] at hc
    by_cases hn : n < 10
    · rw [if_pos hn] at hc
      exact hacc2 c hc
    · rw [if_neg hn] at hc
      exact ih (n / 10) _ hacc2 c hc

theorem natToChars_ne_newline (n : Nat) : ∀ c ∈ natToChars n, c ≠ '\n' :=
  natDigitsAux_ne_newline (n + 1) n [] (by intro c hc; exact absurd hc (List.not_mem_nil c))

theorem joinDots_mem (ls : List (List Char)) (c : Char) (hc : c ∈ joinDots ls) :
    c = '.' ∨ ∃ x ∈ ls, c ∈ x := by
  induction ls with
  | nil => exact absurd hc (List.not_mem_nil c)
  | cons x xs ih =>
    cases xs with
    | nil =>
      right; exact ⟨x, List.mem_cons_self x [], hc⟩
    | cons y ys =>
      rw [show joinDots (x :: y :: ys) = x ++ '.' :: joinDots (y :: ys) from rfl] at hc
      rcases List.mem_append.mp hc with h2 | h2
      · right; exact ⟨x, List.mem_cons_self x (y :: ys), h2⟩
      · rcases List.mem_cons.mp h2 with rfl | h3
        · exact Or.inl rfl
        · rcases ih h3 with h4 | ⟨z, hz, h4⟩
          · exact Or.inl h4
          · exact Or.inr ⟨z, List.mem_cons_of_mem x hz, h4⟩

theorem verToString_ne_newline (l : List Nat) : '\n' ∉ (verToString l).data := by
  intro hmem
  have hdata : (verToString l).data = joinDots (l.map natToChars) := rfl
  rw [hdata] at hmem
  rcases joinDots_mem (l.map natToChars) '\n' hmem with h | ⟨x, hx, h⟩
  · exact absurd h (by decide)
  · rcases List.mem_map.mp hx with ⟨n, _, rfl⟩
    exact natToChars_ne_newline n '\n' h rfl

theorem determine_senior_version_ne_newline (l : List (String × String)) :
    '\n' ∉ (determine_senior_version l).data :=
  verToString_ne_newline (seniorVer l)

/-! ## Poller and fetcher lemmas -/

theorem get_mv_names (es : List VcEndpoint) (g : GetMvResult)
    (h : get_mv_from_urls es = .ok g) : g.names = es.map VcEndpoint.name := by
  induction es generalizing g with
  | nil =>
    simp only [get_mv_from_urls] at h
    cases h
    rfl
  | cons e es ih =>
    simp only [get_mv_from_urls] at h
    cases ho : e.outcome with
    | connErr => rw [ho] at h; cases h
    | notJson =>
      rw [ho] at h
      cases hrec : get_mv_from_urls es with
      | error c => rw [hrec] at h; cases h
      | ok r =>
        rw [hrec] at h
        cases h
        simp [ih r hrec]
    | json valid ver =>
      rw [ho] at h
      cases valid with
      | true =>
        cases hrec : get_mv_from_urls es with
        | error c => rw [hrec] at h; cases h
        | ok r =>
          rw [hrec] at h
          cases h
          simp [ih r hrec]
      | false =>
        cases hrec : get_mv_from_urls es with
        | error c => rw [hrec] at h; cases h
        | ok r =>
          rw [hrec] at h
          cases h
          simp [ih r hrec]

theorem get_mv_total (es : List VcEndpoint)
    (h : ∀ e ∈ es, e.outcome ≠ .connErr) :
    ∃ g, get_mv_from_urls es = .ok g := by
  induction es with
  | nil => exact ⟨⟨[], [], []⟩, rfl⟩
  | cons e es ih =>
    obtain ⟨r, hr⟩ := ih (fun e2 he2 => h e2 (List.mem_cons_of_mem e he2))
    cases ho : e.outcome with
    | connErr => exact absurd ho (h e (List.mem_cons_self e es))
    | notJson =>
      refine ⟨⟨r.models, e.name :: r.names, .warning1 e.name e.path :: r.logs⟩, ?_⟩
      simp only [get_mv_from_urls, ho, hr]
    | json valid ver =>
      cases valid with
      | true =>
        refine ⟨⟨(e.name, delete_closing_zero ver) :: r.models, e.name :: r.names,
          .info0 e.name e.path :: r.logs⟩, ?_⟩
        simp only [get_mv_from_urls, ho, hr]
      | false =>
        refine ⟨⟨r.models, e.name :: r.names, .warning0 e.name e.path :: r.logs⟩, ?_⟩
        simp only [get_mv_from_urls, ho, hr]

theorem download_code (es : List PkgEndpoint) (v : String) (d : DownloadResult)
    (h : download_nuurls_with_model_package es v = .ok d) :
    (d.code = 0 ∨ d.code = 1)
    ∧ (d.code = 0 ↔ ∀ e ∈ es, e.outcome ≠ .httpError) := by
  induction es generalizing d with
  | nil =>
    simp only [download_nuurls_with_model_package] at h
    cases h
    simp
  | cons e es ih =>
    simp only [download_nuurls_with_model_package] at h
    cases ho : e.outcome with
    | connErr => rw [ho] at h; cases h
    | httpError =>
      rw [ho] at h
      cases hrec : download_nuurls_with_model_package es v with
      | error c => rw [hrec] at h; cases h
      | ok r =>
        rw [hrec] at h
        cases h
        constructor
        · exact Or.inr rfl
        · constructor
          · intro h0; cases h0
          · intro hall
            exact absurd ho (hall e (List.mem_cons_self e es))
    | ok cd =>
      cases cd with
      | none => rw [ho] at h; cases h
      | some f =>
        rw [ho] at h
        cases hrec : download_nuurls_with_model_package es v with
        | error c => rw [hrec] at h; cases h
        | ok r =>
          rw [hrec] at h
          cases h
          obtain ⟨hor, hiff⟩ := ih r hrec
          refine ⟨hor, ?_⟩
          rw [hiff]
          constructor
          · intro hall e2 he2
            rcases List.mem_cons.mp he2 with rfl | h2
            · rw [ho]; intro hcon; cases hcon
            · exact hall e2 h2
          · intro hall e2 he2
            exact hall e2 (List.mem_cons_of_mem e he2)

theorem download_total (es : List PkgEndpoint) (v : String)
    (h : ∀ e ∈ es, e.outcome ≠ .connErr ∧ e.outcome ≠ .ok none) :
    ∃ d, download_nuurls_with_model_package es v = .ok d := by
  induction es with
  | nil => exact ⟨⟨0, [], []⟩, rfl⟩
  | cons e es ih =>
    obtain ⟨r, hr⟩ := ih (fun e2 he2 => h e2 (List.mem_cons_of_mem e he2))
    have he := h e (List.mem_cons_self e es)
    cases ho : e.outcome with
    | connErr => exact absurd ho he.1
    | httpError =>
      refine ⟨⟨1, (add_closing_slash e.path ++ v) :: r.urls,
        .error1 e.name (add_closing_slash e.path ++ v) :: r.logs⟩, ?_⟩
      simp only [download_nuurls_with_model_package, ho, hr]
    | ok cd =>
      cases cd with
      | none => exact absurd ho he.2
      | some f =>
        refine ⟨⟨r.code, (add_closing_slash e.path ++ v) :: r.urls,
          .info1 e.name (add_closing_slash e.path ++ v) :: r.logs⟩, ?_⟩
        simp only [download_nuurls_with_model_package, ho, hr]

/-! ## Orchestrator lemmas and claims -/

theorem has_empty (v : String) :
    has_model_already_been_downloaded create_empty_file v = false := by
  simp [has_model_already_been_downloaded, create_empty_file, pyLines, pyLinesAux]

theorem update_eq_append (c v : String) :
    update_downloaded_mv_in_file c v = c ++ (v ++ " \n") := by
  show c ++ v ++ " \n" = c ++ (v ++ " \n")
  rw [String.append_assoc]

/-- Claim C5: when the resolved version is already in the ledger, the run is
a silent no-op: no fetch is invoked, no URL is requested, nothing further is
logged, and the ledger file (which must have existed, since an empty or
absent ledger contains nothing) is unchanged. -/
theorem claim_C5_already_downloaded_noop (w : World) (g : GetMvResult)
    (hg : get_mv_from_urls w.vcEndpoints = .ok g) (hne : g.models ≠ [])
    (hhas : has_model_already_been_downloaded (w.ledger.getD create_empty_file)
        (determine_senior_version g.models) = true) :
    main_run w = .ok ⟨w.ledger, g.logs, [], [], false⟩
    ∧ w.ledger = some (w.ledger.getD create_empty_file) := by
  have hl : w.ledger = some (w.ledger.getD create_empty_file) := by
    cases hcase : w.ledger with
    | none =>
      rw [hcase] at hhas
      simp only [Option.getD] at hhas
      rw [has_empty] at hhas
      cases hhas
    | some s => rfl
  refine ⟨?_, hl⟩
  simp only [main_run, hg]
  rw [if_neg hne, if_pos hhas, ← hl]

/-- Witness for C5: a run whose single version endpoint reports `1.0.198.0`
(normalized to `1.0.198`) against a ledger already holding `1.0.198`. -/
theorem claim_C5_witness :
    main_run ⟨[⟨"dh1", "u1", .json true "1.0.198.0"⟩], [⟨"prgt", "p", .httpError⟩],
        some "1.0.198 \n"⟩
      = .ok ⟨some "1.0.198 \n", [.info0 "dh1" "u1"], [], [], false⟩ :=
  (claim_C5_already_downloaded_noop
    ⟨[⟨"dh1", "u1", .json true "1.0.198.0"⟩], [⟨"prgt", "p", .httpError⟩],
      some "1.0.198 \n"⟩
    ⟨[("dh1", "1.0.198")], ["dh1"], [.info0 "dh1" "u1"]⟩
    (by decide) (by decide) (by decide)).1

/-- Claim C6: an empty version report makes the run log the error naming
every attempted endpoint and then the disaster notice, invoke no fetch,
request no URL, leave the ledger exactly as it was (not even creating it),
and terminate cleanly rather than crash. -/
theorem claim_C6_empty_report_clean (w : World) (g : GetMvResult)
    (hg : get_mv_from_urls w.vcEndpoints = .ok g) (hempty : g.models = []) :
    main_run w = .ok ⟨w.ledger, g.logs, [.error0 g.names, .disaster0], [], false⟩
    ∧ g.names = w.vcEndpoints.map VcEndpoint.name := by
  refine ⟨?_, get_mv_names w.vcEndpoints g hg⟩
  simp only [main_run, hg]
  rw [if_pos hempty]

/-- Witness for C6: two endpoints, one undecodable body and one
schema-invalid body, with no ledger file on disk. -/
theorem claim_C6_witness :
    main_run ⟨[⟨"dh1", "u1", .notJson⟩, ⟨"dh2", "u2", .json false "9"⟩], [], none⟩
      = .ok ⟨none, [.warning1 "dh1" "u1", .warning0 "dh2" "u2"],
          [.error0 ["dh1", "dh2"], .disaster0], [], false⟩ :=
  (claim_C6_empty_report_clean
    ⟨[⟨"dh1", "u1", .notJson⟩, ⟨"dh2", "u2", .json false "9"⟩], [], none⟩
    ⟨[], ["dh1", "dh2"], [.warning1 "dh1" "u1", .warning0 "dh2" "u2"]⟩
    (by decide) (by decide)).1

/-- Claim C9: with an empty set of package-download endpoints the fetcher
makes no request and returns status 0, so the orchestrator appends the
resolved version to the ledger even though no package file was fetched. -/
theorem claim_C9_empty_package_endpoints (w : World) (g : GetMvResult)
    (hg : get_mv_from_urls w.vcEndpoints = .ok g) (hne : g.models ≠ [])
    (hhas : has_model_already_been_downloaded (w.ledger.getD create_empty_file)
        (determine_senior_version g.models) = false)
    (hpkg : w.pkgEndpoints = []) :
    download_nuurls_with_model_package w.pkgEndpoints
        (determine_senior_version g.models) = .ok ⟨0, [], []⟩
    ∧ main_run w = .ok ⟨some (update_downloaded_mv_in_file
          (w.ledger.getD create_empty_file) (determine_senior_version g.models)),
        g.logs, [], [], true⟩ := by
  have hdl : download_nuurls_with_model_package w.pkgEndpoints
      (determine_senior_version g.models) = .ok ⟨0, [], []⟩ := by
    rw [hpkg]; rfl
  refine ⟨hdl, ?_⟩
  simp only [main_run, hg]
  rw [if_neg hne, if_neg (by rw [hhas]; intro h2; cases h2), hdl]
  rfl

/-- Witness for C9: one version endpoint reporting `1.0.198.0`, no package
endpoints, no ledger file on disk. -/
theorem claim_C9_witness :
    main_run ⟨[⟨"dh1", "u1", .json true "1.0.198.0"⟩], [], none⟩
      = .ok ⟨some "1.0.198 \n", [.info0 "dh1" "u1"], [], [], true⟩ :=
  (claim_C9_empty_package_endpoints
    ⟨[⟨"dh1", "u1", .json true "1.0.198.0"⟩], [], none⟩
    ⟨[("dh1", "1.0.198")], ["dh1"], [.info0 "dh1" "u1"]⟩
    (by decide) (by decide) (by decide) (by decide)).2

/-- Claim C1: the fetcher returns 0 exactly when no package endpoint hit an
HTTP error status (and only ever returns 0 or 1), and the orchestrator
appends the resolved version to the ledger iff that status is 0; in
particular a run with a failed endpoint leaves the ledger at its old
content, which does not contain the resolved version. -/
theorem claim_C1_status_gates_ledger :
    (∀ (es : List PkgEndpoint) (v : String) (d : DownloadResult),
      download_nuurls_with_model_package es v = .ok d →
        (d.code = 0 ∨ d.code = 1)
        ∧ (d.code = 0 ↔ ∀ e ∈ es, e.outcome ≠ .httpError))
    ∧ (∀ (w : World) (g : GetMvResult) (d : DownloadResult),
      get_mv_from_urls w.vcEndpoints = .ok g → g.models ≠ [] →
      has_model_already_been_downloaded (w.ledger.getD create_empty_file)
        (determine_senior_version g.models) = false →
      download_nuurls_with_model_package w.pkgEndpoints
        (determine_senior_version g.models) = .ok d →
        main_run w = .ok ⟨some (if d.code = 0
            then update_downloaded_mv_in_file (w.ledger.getD create_empty_file)
              (determine_senior_version g.models)
            else w.ledger.getD create_empty_file), g.logs, d.logs, d.urls, true⟩
        ∧ (d.code ≠ 0 →
            main_run w = .ok ⟨some (w.ledger.getD create_empty_file),
              g.logs, d.logs, d.urls, true⟩
            ∧ has_model_already_been_downloaded (w.ledger.getD create_empty_file)
                (determine_senior_version g.models) = false)) := by
  constructor
  · intro es v d h
    exact download_code es v d h
  · intro w g d hg hne hhas hd
    have hmain : main_run w = .ok ⟨some (if d.code = 0
        then update_downloaded_mv_in_file (w.ledger.getD create_empty_file)
          (determine_senior_version g.models)
        else w.ledger.getD create_empty_file), g.logs, d.logs, d.urls, true⟩ := by
      simp only [main_run, hg]
      rw [if_neg hne, if_neg (by rw [hhas]; intro h2; cases h2), hd]
    refine ⟨hmain, ?_⟩
    intro hcode
    refine ⟨?_, hhas⟩
    rw [hmain, if_neg hcode]

/-- Witness for C1: two package endpoints, one failing with an HTTP error
and one succeeding; the run completes with status 1 and the ledger file is
created empty but gains no entry. -/
theorem claim_C1_witness :
    main_run ⟨[⟨"dh1", "u1", .json true "1.0.198.0"⟩],
        [⟨"prgt", "p1", .httpError⟩, ⟨"mir", "p2", .ok (some "pkg.nupkg")⟩], none⟩
      = .ok ⟨some "", [.info0 "dh1" "u1"],
          [.error1 "prgt" "p1/1.0.198", .info1 "mir" "p2/1.0.198"],
          ["p1/1.0.198", "p2/1.0.198"], true⟩ := by
  have h := (claim_C1_status_gates_ledger.2
    ⟨[⟨"dh1", "u1", .json true "1.0.198.0"⟩],
      [⟨"prgt", "p1", .httpError⟩, ⟨"mir", "p2", .ok (some "pkg.nupkg")⟩], none⟩
    ⟨[("dh1", "1.0.198")], ["dh1"], [.info0 "dh1" "u1"]⟩
    ⟨1, ["p1/1.0.198", "p2/1.0.198"],
      [.error1 "prgt" "p1/1.0.198", .info1 "mir" "p2/1.0.198"]⟩
    (by decide) (by decide) (by decide) (by decide)).2 (by decide)
  exact h.1

/-- Counterexample to claim C4 as stated: a network-level error from
`requests.get` on a version-check endpoint (here the only failure in the
whole run) is not absorbed at the endpoint level — the run propagates it as
an uncaught exception, because the poller catches only
`json.decoder.JSONDecodeError`. -/
theorem claim_C4_counterexample :
    main_run ⟨[⟨"dh1", "https://dh1.example/ping", .connErr⟩], [], none⟩
      = .error .connectionError
    ∧ download_nuurls_with_model_package [⟨"prgt", "p", .connErr⟩] "1.0.198"
      = .error .connectionError := by
  exact ⟨rfl, rfl⟩

/-- Claim C4 (amended): a version-check body that is not parseable JSON, a
schema-invalid body, and an HTTP error status on a download are absorbed at
the endpoint level and the run completes; but connection-level request
errors (and a missing `Content-Disposition` header on a successful
download) are unguarded and propagate as a crash. -/
theorem claim_C4_amended_absorbed (w : World)
    (hvc : ∀ e ∈ w.vcEndpoints, e.outcome ≠ .connErr)
    (hpkg : ∀ e ∈ w.pkgEndpoints, e.outcome ≠ .connErr ∧ e.outcome ≠ .ok none) :
    ∃ r, main_run w = .ok r := by
  obtain ⟨g, hg⟩ := get_mv_total w.vcEndpoints hvc
  by_cases hm : g.models = []
  · refine ⟨⟨w.ledger, g.logs, [.error0 g.names, .disaster0], [], false⟩, ?_⟩
    simp only [main_run, hg]
    rw [if_pos hm]
  · by_cases hhas : has_model_already_been_downloaded
        (w.ledger.getD create_empty_file) (determine_senior_version g.models) = true
    · refine ⟨⟨some (w.ledger.getD create_empty_file), g.logs, [], [], false⟩, ?_⟩
      simp only [main_run, hg]
      rw [if_neg hm, if_pos hhas]
    · obtain ⟨d, hd⟩ := download_total w.pkgEndpoints
        (determine_senior_version g.models) hpkg
      refine ⟨⟨some (if d.code = 0
          then update_downloaded_mv_in_file (w.ledger.getD create_empty_file)
            (determine_senior_version g.models)
          else w.ledger.getD create_empty_file), g.logs, d.logs, d.urls, true⟩, ?_⟩
      simp only [main_run, hg]
      rw [if_neg hm, if_neg hhas, hd]

/-- Witness for the amended C4: a run mixing a bad-JSON endpoint, a
schema-invalid endpoint, a good endpoint and a failing download completes
without a crash. -/
theorem claim_C4_amended_witness :
    ∃ r, main_run ⟨[⟨"dh1", "u1", .notJson⟩, ⟨"dh2", "u2", .json false "9"⟩,
        ⟨"dh3", "u3", .json true "1.0.198.0"⟩],
        [⟨"prgt", "p1", .httpError⟩], none⟩ = .ok r :=
  claim_C4_amended_absorbed
    ⟨[⟨"dh1", "u1", .notJson⟩, ⟨"dh2", "u2", .json false "9"⟩,
      ⟨"dh3", "u3", .json true "1.0.198.0"⟩],
      [⟨"prgt", "p1", .httpError⟩], none⟩
    (by decide) (by decide)

/-- Claim C10: every completed run only appends to the ledger: the old
content is an initial segment of the new content and the added suffix is
empty or a single newline-terminated version line; on a well-formed ledger
every pre-existing line therefore survives unchanged and in order, with at
most one new line appended at the end. -/
theorem claim_C10_run_append_only (w : World) (r : RunResult)
    (h : main_run w = .ok r) :
    (∀ s : String, w.ledger = some s →
      ∃ t : String, r.ledger = some (s ++ t)
        ∧ (t = "" ∨ ∃ v2 : String, t = v2 ++ " \n" ∧ '\n' ∉ v2.data))
    ∧ (∀ vs : List String, w.ledger = some (ledgerOf vs) →
        (∀ u ∈ vs, '\n' ∉ u.data) →
        ∃ app : List String,
          (app = [] ∨ ∃ v2 : String, app = [v2] ∧ '\n' ∉ v2.data)
          ∧ r.ledger = some (ledgerOf (vs ++ app))
          ∧ pyLines (ledgerOf (vs ++ app))
              = pyLines (ledgerOf vs)
                ++ app.map (fun v2 => v2.data ++ [' ', '\n'])) := by
  have key : r.ledger = w.ledger
      ∨ r.ledger = some (w.ledger.getD create_empty_file)
      ∨ ∃ v2 : String, '\n' ∉ v2.data
          ∧ r.ledger = some (update_downloaded_mv_in_file
              (w.ledger.getD create_empty_file) v2) := by
    cases hg : get_mv_from_urls w.vcEndpoints with
    | error c =>
      simp only [main_run, hg] at h
      exact Except.noConfusion h
    | ok g =>
      simp only [main_run, hg] at h
      by_cases hm : g.models = []
      · rw [if_pos hm] at h
        injection h with h2
        left; rw [← h2]
      · rw [if_neg hm] at h
        by_cases hhas : has_model_already_been_downloaded
            (w.ledger.getD create_empty_file)
            (determine_senior_version g.models) = true
        · rw [if_pos hhas] at h
          injection h with h2
          right; left; rw [← h2]
        · rw [if_neg hhas] at h
          cases hd : download_nuurls_with_model_package w.pkgEndpoints
              (determine_senior_version g.models) with
          | error c =>
            rw [hd] at h
            exact Except.noConfusion h
          | ok d =>
            rw [hd] at h
            injection h with h2
            by_cases hc : d.code = 0
            · right; right
              refine ⟨determine_senior_version g.models,
                determine_senior_version_ne_newline g.models, ?_⟩
              rw [← h2]
              simp only [if_pos hc]
            · right; left
              rw [← h2]
              simp only [if_neg hc]
  constructor
  · intro s hs
    have hsg : w.ledger.getD create_empty_file = s := by rw [hs]; rfl
    rcases key with hk | hk | ⟨v2, hv2, hk⟩
    · exact ⟨"", by rw [hk, hs]; simp, Or.inl rfl⟩
    · exact ⟨"", by rw [hk, hsg]; simp, Or.inl rfl⟩
    · refine ⟨v2 ++ " \n", ?_, Or.inr ⟨v2, rfl, hv2⟩⟩
      rw [hk, hsg, update_eq_append]
  · intro vs hvs hfree
    have hsg : w.ledger.getD create_empty_file = ledgerOf vs := by rw [hvs]; rfl
    rcases key with hk | hk | ⟨v2, hv2, hk⟩
    · exact ⟨[], Or.inl rfl, by rw [hk, hvs]; simp, by simp⟩
    · exact ⟨[], Or.inl rfl, by rw [hk, hsg]; simp, by simp⟩
    · refine ⟨[v2], Or.inr ⟨v2, rfl, hv2⟩, ?_, ?_⟩
      · rw [hk, hsg, ← ledgerOf_snoc]
      · have hfree2 : ∀ u ∈ vs ++ [v2], '\n' ∉ u.data := by
          intro u hu
          rcases List.mem_append.mp hu with h2 | h2
          · exact hfree u h2
          · simp at h2; rw [h2]; exact hv2
        rw [pyLines_ledgerOf (vs ++ [v2]) hfree2, pyLines_ledgerOf vs hfree]
        simp

/-- Witness for C10: a concrete run over a ledger holding `1.0` that
downloads version `2`; the theorem yields the appended suffix. -/
theorem claim_C10_witness :
    ∃ t : String,
      (RunResult.ledger ⟨some "1.0 \n2 \n", [.info0 "dh1" "u1"], [], [], true⟩)
        = some (ledgerOf ["1.0"] ++ t)
      ∧ (t = "" ∨ ∃ v2 : String, t = v2 ++ " \n" ∧ '\n' ∉ v2.data) :=
  (claim_C10_run_append_only
    ⟨[⟨"dh1", "u1", .json true "2.0"⟩], [], some (ledgerOf ["1.0"])⟩
    ⟨some "1.0 \n2 \n", [.info0 "dh1" "u1"], [], [], true⟩
    (by decide)).1 (ledgerOf ["1.0"]) rfl
